import Mathlib

/-!
Verification development for the revision-history core of a multi-role
workload orchestrator ("RoleBasedGroup" controller).

The Go package under verification builds, stores, restores and
garbage-collects ControllerRevision records for a RoleBasedGroup (RBG)
parent object.  JSON documents are modelled by the mutual inductive
family Json / JsonList / JsonObj below; JSON numbers are modelled as
integers (no claim under consideration involves fractional numbers), and
object key order in the model follows construction order (the Go
marshaller sorts map keys when producing bytes; all statements below
inspect documents through key lookup, never through raw byte order).
-/

mutual
inductive Json where
  | null : Json
  | bool (b : Bool) : Json
  | num (n : Int) : Json
  | str (s : String) : Json
  | arr (xs : JsonList) : Json
  | obj (kvs : JsonObj) : Json
inductive JsonList where
  | nil : JsonList
  | cons (hd : Json) (tl : JsonList) : JsonList
inductive JsonObj where
  | nil : JsonObj
  | cons (key : String) (val : Json) (tl : JsonObj) : JsonObj
end

deriving instance DecidableEq for Json, JsonList, JsonObj

/-- Lookup of a key in a JSON object (first binding wins, as in a Go map
whose keys are unique). -/
def lookupJ (k : String) : JsonObj → Option Json
  | .nil => none
  | .cons k' v rest => if k' = k then some v else lookupJ k rest

/-- Removal of a key from a JSON object (models `delete(m, k)`). -/
def removeJ (k : String) : JsonObj → JsonObj
  | .nil => .nil
  | .cons k' v rest => if k' = k then removeJ k rest else .cons k' v (removeJ k rest)

/-- Assignment `m[k] = v` on a JSON object: overwrites an existing
binding in place, otherwise appends a new one. -/
def setJ (k : String) (v : Json) : JsonObj → JsonObj
  | .nil => .cons k v .nil
  | .cons k' v' rest => if k' = k then .cons k v rest else .cons k' v' (setJ k v rest)

/-- Model of `json.Unmarshal(bytes, &m)` for `m map[string]interface{}`
applied to an already-parsed document: a JSON object gives its bindings,
JSON `null` gives the nil map (Go accepts this without error), anything
else is an unmarshalling error. -/
def jsonToMap : Json → Option JsonObj
  | .obj kvs => some kvs
  | .null => some .nil
  | _ => none

/-!
Strategic merge patch.

`ApplyRevision` in the source calls `strategicpatch.StrategicMergePatch`
from k8s.io/apimachinery (an external library): both documents are
unmarshalled into untyped maps and merged recursively.  The model below
follows that library's `mergeMap` restricted to the features the RBG
schema exercises: the RBG struct carries no `patchStrategy:"merge"` tags,
so every list field is atomic and a patch list replaces the original list
wholesale; a `$patch` key whose value is "replace" or "delete" is the
map-level directive, any other `$patch` value is an error; a `null` patch
value deletes the key (StrategicMergePatch ignores unmatched nulls); the
`$setElementOrder`/`$retainKeys`/`$deleteFromPrimitiveList` directives
never occur in the documents this package builds or stores and are not
modelled.
-/

mutual
/-- One patch binding `k ↦ v` applied to the map `orig`: `null` deletes
the key; an object value merges recursively when the original value is
also an object (checking the `$patch` directive first, as `mergeMap`
does on entry) and replaces it otherwise; any other value replaces. -/
def mergeOne (orig : JsonObj) (k : String) (v : Json) : Option JsonObj :=
  match v with
  | Json.null => some (removeJ k orig)
  | Json.obj p =>
      match lookupJ k orig with
      | some (Json.obj o) =>
          match lookupJ "$patch" p with
          | some (Json.str "replace") => some (setJ k (Json.obj (removeJ "$patch" p)) orig)
          | some (Json.str "delete") => some (setJ k (Json.obj JsonObj.nil) orig)
          | some _ => none
          | none =>
              match mergeObjEntries o p with
              | none => none
              | some m => some (setJ k (Json.obj m) orig)
      | _ => some (setJ k (Json.obj p) orig)
  | v => some (setJ k v orig)
termination_by structural v

/-- Fold of `mergeOne` over the patch object's bindings. -/
def mergeObjEntries (orig : JsonObj) : JsonObj → Option JsonObj
  | .nil => some orig
  | .cons k v rest =>
      match mergeOne orig k v with
      | none => none
      | some acc => mergeObjEntries acc rest
termination_by structural p => p
end

/-- Model of the library's `mergeMap(original, patch)`: a top-level
`$patch` directive replaces or deletes the whole map, otherwise the
patch bindings are merged in one by one. -/
def mergeMap (orig patch : JsonObj) : Option JsonObj :=
  match lookupJ "$patch" patch with
  | some (Json.str "replace") => some (removeJ "$patch" patch)
  | some (Json.str "delete") => some JsonObj.nil
  | some _ => none
  | none => mergeObjEntries orig patch

/-!
The RoleBasedGroup data model.

The API types (`sigs.k8s.io/rbgs/api/workloads/v1alpha1`) are code of
this repository that is not among the sources under verification; they
are modelled from the spec.
-/

/-- Modelled from the spec: a Role is "one named unit of work within the
parent: replica count, a target workload kind/API identifier, and a pod
template".  The pod template is a struct whose JSON encoding is an
object; its internals never matter here, so it is kept as an opaque
object. -/
structure RoleSpec where
  name : String
  replicas : Option Int
  workloadAPIVersion : String
  workloadKind : String
  template : JsonObj
deriving DecidableEq

/-- Modelled from the spec: the parent resource has "a unique name and
namespace, a set of Role declarations (ordered, non-empty), and an
optional group-wide scheduling policy".  The scheduling policy
(`podGroupPolicy`, a pointer to a struct, hence an object when present)
and the status subtree are kept opaque. -/
structure RoleBasedGroup where
  name : String
  ns : String
  roles : List RoleSpec
  podGroupPolicy : Option JsonObj
  status : JsonObj
deriving DecidableEq

/-- Decoder for a JSON string field of a Go struct: a missing key or
JSON null leaves the zero value "", a string is taken as is, anything
else is an unmarshalling error. -/
def decStrField (kvs : JsonObj) (k : String) : Option String :=
  match lookupJ k kvs with
  | none => some ""
  | some Json.null => some ""
  | some (Json.str s) => some s
  | some _ => none

/-- Decoder for an optional integer field (Go pointer-to-int): missing
or null gives nil, a number gives the value, anything else errors. -/
def decOptIntField (kvs : JsonObj) (k : String) : Option (Option Int) :=
  match lookupJ k kvs with
  | none => some none
  | some Json.null => some none
  | some (Json.num n) => some (some n)
  | some _ => none

/-- Decoder for a struct-valued field kept opaque: missing or null gives
the zero struct (empty object), an object is taken as is, anything else
errors. -/
def decObjField (kvs : JsonObj) (k : String) : Option JsonObj :=
  match lookupJ k kvs with
  | none => some JsonObj.nil
  | some Json.null => some JsonObj.nil
  | some (Json.obj o) => some o
  | some _ => none

/-- JSON encoding of a Role (standard Go struct marshalling; `replicas`
carries omitempty). -/
def encodeRole (r : RoleSpec) : Json :=
  Json.obj (JsonObj.cons "name" (Json.str r.name)
    (match r.replicas with
     | some n => JsonObj.cons "replicas" (Json.num n)
        (JsonObj.cons "workload" (Json.obj (JsonObj.cons "apiVersion" (Json.str r.workloadAPIVersion)
            (JsonObj.cons "kind" (Json.str r.workloadKind) JsonObj.nil)))
          (JsonObj.cons "template" (Json.obj r.template) JsonObj.nil))
     | none => JsonObj.cons "workload" (Json.obj (JsonObj.cons "apiVersion" (Json.str r.workloadAPIVersion)
            (JsonObj.cons "kind" (Json.str r.workloadKind) JsonObj.nil)))
          (JsonObj.cons "template" (Json.obj r.template) JsonObj.nil)))

def decWorkload (kvs : JsonObj) : Option (String × String) :=
  match lookupJ "workload" kvs with
  | none => some ("", "")
  | some Json.null => some ("", "")
  | some (Json.obj w) =>
      match decStrField w "apiVersion", decStrField w "kind" with
      | some a, some k => some (a, k)
      | _, _ => none
  | some _ => none

/-- JSON decoding of a Role (`json.Unmarshal` into the typed struct):
unknown keys are dropped, null leaves zero values, a shape mismatch on a
known key is an error. -/
def decodeRole (j : Json) : Option RoleSpec :=
  match j with
  | Json.obj kvs =>
      match decStrField kvs "name", decOptIntField kvs "replicas",
            decWorkload kvs, decObjField kvs "template" with
      | some n, some rep, some w, some t => some ⟨n, rep, w.1, w.2, t⟩
      | _, _, _, _ => none
  | Json.null => some ⟨"", none, "", "", JsonObj.nil⟩
  | _ => none

def encodeRoles : List RoleSpec → JsonList
  | [] => .nil
  | r :: rs => .cons (encodeRole r) (encodeRoles rs)

def decodeRoles : JsonList → Option (List RoleSpec)
  | .nil => some []
  | .cons j rest =>
      match decodeRole j, decodeRoles rest with
      | some r, some rs => some (r :: rs)
      | _, _ => none

/-- JSON encoding of a RoleBasedGroup (what `json.Marshal` and
`unstructured.UnstructuredJSONScheme.Encode` produce): metadata, spec
with the roles list and the optional group policy, status. -/
def encodeRBG (r : RoleBasedGroup) : Json :=
  Json.obj (JsonObj.cons "metadata"
      (Json.obj (JsonObj.cons "name" (Json.str r.name)
        (JsonObj.cons "namespace" (Json.str r.ns) JsonObj.nil)))
    (JsonObj.cons "spec"
      (Json.obj (JsonObj.cons "roles" (Json.arr (encodeRoles r.roles))
        (match r.podGroupPolicy with
         | some p => JsonObj.cons "podGroupPolicy" (Json.obj p) JsonObj.nil
         | none => JsonObj.nil)))
    (JsonObj.cons "status" (Json.obj r.status) JsonObj.nil)))

def decMeta (kvs : JsonObj) : Option (String × String) :=
  match lookupJ "metadata" kvs with
  | none => some ("", "")
  | some Json.null => some ("", "")
  | some (Json.obj m) =>
      match decStrField m "name", decStrField m "namespace" with
      | some a, some b => some (a, b)
      | _, _ => none
  | some _ => none

def decSpec (kvs : JsonObj) : Option (List RoleSpec × Option JsonObj) :=
  match lookupJ "spec" kvs with
  | none => some ([], none)
  | some Json.null => some ([], none)
  | some (Json.obj sp) =>
      match (match lookupJ "roles" sp with
             | none => some []
             | some Json.null => some []
             | some (Json.arr rs) => decodeRoles rs
             | some _ => none),
            (match lookupJ "podGroupPolicy" sp with
             | none => some none
             | some Json.null => some none
             | some (Json.obj p) => some (some p)
             | some _ => none) with
      | some rolesV, some polV => some (rolesV, polV)
      | _, _ => none
  | some _ => none

/-- JSON decoding of a RoleBasedGroup (`json.Unmarshal` into the typed
struct): unknown keys — such as a stray directive key inside `spec` —
are dropped silently. -/
def decodeRBG (j : Json) : Option RoleBasedGroup :=
  match jsonToMap j with
  | none => none
  | some kvs =>
      match decMeta kvs, decSpec kvs, decObjField kvs "status" with
      | some m, some s, some st => some ⟨m.1, m.2, s.1, s.2, st⟩
      | _, _, _ => none

/-!
Revision records and the revision utilities (`pkg/utils` in the source).
-/

/-- Parse status of the raw patch bytes `Data.Raw` of a ControllerRevision:
the bytes are either empty, non-empty but not valid JSON, or parse to a
document. -/
inductive RawDoc where
  | empty : RawDoc
  | malformed : RawDoc
  | doc (j : Json) : RawDoc
deriving DecidableEq

/-- A ControllerRevision record as this package uses it: object metadata
(name, namespace, labels, the controller owner reference's UID if any),
the revision number, the store-assigned creation timestamp, and the raw
patch data.  `Data.Object` is nil for every revision this package
builds, so only the raw bytes are modelled. -/
structure ControllerRevision where
  name : String
  ns : String
  labels : List (String × String)
  controllerOwnerUID : Option String
  revision : Int
  creationTimestamp : Int
  data : RawDoc
deriving DecidableEq

/-- Translation of `getRBGPatch`: marshal the parent, re-parse it into an
untyped map, extract `spec` and `spec.roles` (type assertions in the
source, hence the Option), and build the minimal patch document.  The
source inserts the keys "roles" and then "$path" into the copied spec
map — note the key is literally `$path` in the source
(`specCopy["$path"] = "replace"`). -/
def getRBGPatch (rbg : RoleBasedGroup) : Option Json :=
  match encodeRBG rbg with
  | Json.obj kvs =>
      match lookupJ "spec" kvs with
      | some (Json.obj sp) =>
          match lookupJ "roles" sp with
          | some rolesV =>
              some (Json.obj (JsonObj.cons "spec"
                (Json.obj (JsonObj.cons "roles" rolesV
                  (JsonObj.cons "$path" (Json.str "replace") JsonObj.nil))) JsonObj.nil))
          | none => none
      | _ => none
  | _ => none

/-- Translation of `ApplyRevision`: encode the live object, apply the
revision's stored patch with the strategic-merge library (which parses
both byte strings into untyped maps — empty or malformed patch bytes are
an unmarshalling error), and decode the merged document back into a
typed object. -/
def ApplyRevision (rbg : RoleBasedGroup) (rev : ControllerRevision) : Option RoleBasedGroup :=
  match rev.data with
  | RawDoc.empty => none
  | RawDoc.malformed => none
  | RawDoc.doc p =>
      match jsonToMap (encodeRBG rbg), jsonToMap p with
      | some o, some pm =>
          match mergeMap o pm with
          | some merged => decodeRBG (Json.obj merged)
          | none => none
      | _, _ => none

/-- State-passing embedding of `ApplyRevision`: the first component is
the value of the caller's live object when the call returns.  Every
statement of the source only reads the live object (the encode step, the
merge step — which receives it merely as a schema witness — and the
unmarshal step, which fills a freshly allocated object), so the embedding
threads its value through unchanged, branch by branch. -/
def ApplyRevisionS (rbg : RoleBasedGroup) (rev : ControllerRevision) :
    RoleBasedGroup × Option RoleBasedGroup :=
  match rev.data with
  | RawDoc.empty => (rbg, none)
  | RawDoc.malformed => (rbg, none)
  | RawDoc.doc p =>
      match jsonToMap (encodeRBG rbg), jsonToMap p with
      | some o, some pm =>
          match mergeMap o pm with
          | some merged => (rbg, decodeRBG (Json.obj merged))
          | none => (rbg, none)
      | _, _ => (rbg, none)

/-!
Garbage collection (`CleanExpiredRevision`) and its sort order.
-/

/-- Translation of the comparator passed to `sort.SliceStable`:
ascending by revision number, then creation timestamp, then name. -/
def revLt (a b : ControllerRevision) : Bool :=
  if a.revision = b.revision then
    if a.creationTimestamp = b.creationTimestamp then decide (a.name < b.name)
    else decide (a.creationTimestamp < b.creationTimestamp)
  else decide (a.revision < b.revision)

/-- The comparator's sort key: the lexicographic triple it orders by. -/
def revKey (a : ControllerRevision) : Lex (Int × Lex (Int × String)) :=
  toLex (a.revision, toLex (a.creationTimestamp, a.name))

/-- Stable insertion of one element into an ascending run: the element
lands in front of the first strictly greater entry, after all entries it
ties with. -/
def insertRev (x : ControllerRevision) : List ControllerRevision → List ControllerRevision
  | [] => [x]
  | y :: ys => if revLt x y then x :: y :: ys else y :: insertRev x ys

/-- Model of `sort.SliceStable(revisions, less)` with the comparator
`revLt`: a stable ascending sort (stable insertion sort; any stable sort
realises the same output sequence). -/
def sortRevs (l : List ControllerRevision) : List ControllerRevision :=
  l.foldl (fun acc x => insertRev x acc) []

/-- The ascending order the sort establishes, stated on sort keys. -/
def revLeP (a b : ControllerRevision) : Prop := revKey a ≤ revKey b

/-- Outcome of one `CleanExpiredRevision` call: which revisions were
successfully deleted from the store (in deletion order), the returned
slice, and whether an error was returned. -/
structure CleanResult where
  deleted : List ControllerRevision
  returned : List ControllerRevision
  failed : Bool
deriving DecidableEq

/-- The deletion loop over the surplus entries: stops at the first
failing delete.  `delOk r = true` means the store deletes `r`
successfully. -/
def deleteSeq (delOk : ControllerRevision → Bool) :
    List ControllerRevision → List ControllerRevision × Bool
  | [] => ([], false)
  | r :: rs =>
      if delOk r then
        ((deleteSeq delOk rs).1.cons r, (deleteSeq delOk rs).2)
      else ([], true)

/-- Translation of `CleanExpiredRevision`: with `exceedNum := len - 10`
(the retention limit is the hard-coded default 10), a non-positive
surplus returns the input unchanged; otherwise the input slice is sorted
in place (stable, by `revLt`), the `exceedNum` oldest entries are
deleted — a failing delete aborts the loop and returns the (sorted) full
slice with the error — and on success the remaining entries are
returned. -/
def CleanExpiredRevision (delOk : ControllerRevision → Bool)
    (revisions : List ControllerRevision) : CleanResult :=
  if (revisions.length : Int) - 10 ≤ 0 then ⟨[], revisions, false⟩
  else if (deleteSeq delOk ((sortRevs revisions).take (((revisions.length : Int) - 10).toNat))).2
  then ⟨(deleteSeq delOk ((sortRevs revisions).take (((revisions.length : Int) - 10).toNat))).1,
        sortRevs revisions, true⟩
  else ⟨(deleteSeq delOk ((sortRevs revisions).take (((revisions.length : Int) - 10).toNat))).1,
        (sortRevs revisions).drop (((revisions.length : Int) - 10).toNat), false⟩

/-!
Highest revision and the store-facing list operation.
-/

/-- The loop body of `GetHighestRevision`: running maximum (started at
zero) and the revision that last updated it. -/
def ghrStep (acc : Int × Option ControllerRevision) (r : ControllerRevision) :
    Int × Option ControllerRevision :=
  if acc.1 ≤ r.revision then (r.revision, some r) else acc

/-- Translation of `GetHighestRevision`: nil for an empty list, else a
linear scan keeping the revision with the greatest number seen so far,
with the running maximum defaulted to zero and ties updating (so the
last element attaining the maximum wins). -/
def GetHighestRevision (revisions : List ControllerRevision) : Option ControllerRevision :=
  if revisions.length ≤ 0 then none
  else (revisions.foldl ghrStep ((0 : Int), (none : Option ControllerRevision))).2

/-- The parent as the list operation sees it (a `metav1.Object`): its
namespace and UID. -/
structure ParentObject where
  ns : String
  uid : String
deriving DecidableEq

def lookupS (k : String) : List (String × String) → Option String
  | [] => none
  | (k', v) :: rest => if k' = k then some v else lookupS k rest

/-- Modelled from the spec: selector semantics of the store's list call.
A nil selector "must select nothing"; a present selector is the
set-based selector of the tests — every required label key must be
present with an equal value (the empty requirement list selects
everything). -/
def matchesSelector (sel : Option (List (String × String)))
    (lbls : List (String × String)) : Bool :=
  match sel with
  | none => false
  | some reqs => reqs.all (fun kv => lookupS kv.1 lbls == some kv.2)

/-- Modelled from the spec: the store gateway's list primitive returns
every stored revision record in the given namespace matching the
selector. -/
def storeListRevisions (store : List ControllerRevision) (ns : String)
    (sel : Option (List (String × String))) : List ControllerRevision :=
  store.filter (fun r => r.ns == ns && matchesSelector sel r.labels)

/-- Translation of `ListRevisions`: list the revisions of the parent's
namespace matching the selector (`listFails` models a failing transport
call, which yields a nil result and the error), then keep those with no
controller owner reference or one whose UID is the parent's. -/
def ListRevisions (store : List ControllerRevision) (listFails : Bool)
    (parent : ParentObject) (sel : Option (List (String × String))) :
    Option (List ControllerRevision) :=
  if listFails then none
  else some ((storeListRevisions store parent.ns sel).filter
      (fun r => r.controllerOwnerUID.isNone || r.controllerOwnerUID == some parent.uid))

/-!
Hashing and naming: `hashRevision`, `revisionName`, `getRoleHashMap`.

Revision names are byte strings in Go (`len` and slicing act on bytes),
so `revisionName` is modelled on byte lists; hashes and decimal numbers
are ASCII, one byte per character.
-/

/-- The 32-bit FNV-1a hash over a byte sequence (offset basis
2166136261, prime 16777619, arithmetic modulo 2^32). -/
def fnv32a (bytes : List Nat) : Nat :=
  bytes.foldl (fun h b => ((h ^^^ b) * 16777619) % 4294967296) 2166136261

/-- Decimal digits of a natural number as ASCII bytes, fuel-based as in
the standard formatter (`fmt.Sprint` prints decimal). -/
def natDecAux : Nat → Nat → List Nat → List Nat
  | 0, _, acc => acc
  | fuel + 1, n, acc =>
      if n < 10 then (48 + n) :: acc
      else natDecAux fuel (n / 10) ((48 + n % 10) :: acc)

def natDec (n : Nat) : List Nat := natDecAux (n + 1) n []

/-- The byte value of each character of the alphabet
"bcdfghjklmnpqrstvwxz2456789" the k8s `rand` package encodes with
(length 27). -/
def alphanumsBytes : List Nat :=
  [98, 99, 100, 102, 103, 104, 106, 107, 108, 109, 110, 112, 113, 114, 115, 116,
   118, 119, 120, 122, 50, 52, 53, 54, 55, 56, 57]

/-- Model of `rand.SafeEncodeString`: every input byte is replaced by
the alphabet character at its value modulo 27; the length is
preserved. -/
def safeEncode (s : List Nat) : List Nat :=
  s.map (fun b => alphanumsBytes.getD (b % 27) 0)

/-- Translation of `hashRevision` for a revision whose `Data.Object` is
nil (none of the revisions this package builds carries a decoded
object): FNV-1a over the raw patch bytes, printed in decimal and
safe-encoded. -/
def hashRevision (raw : List Nat) : List Nat := safeEncode (natDec (fnv32a raw))

/-- Decimal print of a signed integer (`fmt`'s `%v` on an int64): a
minus sign byte followed by the decimal digits of the magnitude. -/
def intDec (n : Int) : List Nat :=
  if n < 0 then 45 :: natDec (-n).toNat else natDec n.toNat

/-- Translation of `revisionName`: the parent-name bytes truncated to
220 when longer, then a hyphen, the hash, a hyphen and the decimal
revision number (`fmt.Sprintf` with "%s-%s-%v"). -/
def revisionName (parentName : List Nat) (hash : List Nat) (revisionNumber : Int) : List Nat :=
  (if 220 < parentName.length then parentName.take 220 else parentName)
    ++ 45 :: (hash ++ 45 :: intDec revisionNumber)

/-!
Per-role hashing (`getRoleHashMap`) re-marshals each role map with
`json.Marshal`, which emits object keys in sorted order; the serializer
below therefore sorts every object in the tree first and then prints.
The exact escape table only influences hash values, which no statement
below inspects.
-/

def insertObjSorted (k : String) (v : Json) : JsonObj → JsonObj
  | .nil => .cons k v .nil
  | .cons k' v' rest =>
      if k ≤ k' then .cons k v (.cons k' v' rest)
      else .cons k' v' (insertObjSorted k v rest)

mutual
/-- Recursively sorts the keys of every object in a document, as the Go
marshaller does when printing maps. -/
def sortJson : Json → Json
  | Json.arr xs => Json.arr (sortListRec xs)
  | Json.obj kvs => Json.obj (sortObjRec kvs)
  | j => j
termination_by structural j => j
def sortListRec : JsonList → JsonList
  | .nil => .nil
  | .cons x rest => .cons (sortJson x) (sortListRec rest)
termination_by structural xs => xs
def sortObjRec : JsonObj → JsonObj
  | .nil => .nil
  | .cons k v rest => insertObjSorted k (sortJson v) (sortObjRec rest)
termination_by structural kvs => kvs
end

/-- JSON string escaping (quote, backslash, the common control
characters and the HTML-escaped characters of the Go encoder). -/
def escapeChar (c : Char) : String :=
  if c = '"' then "\\\""
  else if c = '\\' then "\\\\"
  else if c = '\n' then "\\n"
  else if c = '\r' then "\\r"
  else if c = '\t' then "\\t"
  else if c = '<' then "\\u003c"
  else if c = '>' then "\\u003e"
  else if c = '&' then "\\u0026"
  else String.singleton c

def escapeString (s : String) : String := String.join (s.toList.map escapeChar)

mutual
/-- Prints a document the way `json.Marshal` prints the corresponding
untyped value (objects are expected pre-sorted by `sortJson`). -/
def serializeJson : Json → String
  | Json.null => "null"
  | Json.bool b => if b then "true" else "false"
  | Json.num n => toString n
  | Json.str s => "\"" ++ escapeString s ++ "\""
  | Json.arr xs => "[" ++ serializeList xs ++ "]"
  | Json.obj kvs => "\x7b" ++ serializeObj kvs ++ "\x7d"
termination_by structural j => j
def serializeList : JsonList → String
  | .nil => ""
  | .cons x JsonList.nil => serializeJson x
  | .cons x (JsonList.cons y rest) =>
      serializeJson x ++ "," ++ serializeList (JsonList.cons y rest)
termination_by structural xs => xs
def serializeObj : JsonObj → String
  | .nil => ""
  | .cons k v JsonObj.nil => "\"" ++ escapeString k ++ "\":" ++ serializeJson v
  | .cons k v (JsonObj.cons k2 v2 rest) =>
      "\"" ++ escapeString k ++ "\":" ++ serializeJson v ++ ","
        ++ serializeObj (JsonObj.cons k2 v2 rest)
termination_by structural kvs => kvs
end

/-- UTF-8 bytes of a string. -/
def strToBytes (s : String) : List Nat :=
  (s.data.flatMap String.utf8EncodeChar).map (fun b => b.toNat)

/-- Bytes `json.Marshal` produces for a document. -/
def marshalBytes (j : Json) : List Nat := strToBytes (serializeJson (sortJson j))

/-- Go map assignment on the accumulated role-hash map: overwrite an
existing key, else append. -/
def insertHash (k : String) (v : List Nat) :
    List (String × List Nat) → List (String × List Nat)
  | [] => [(k, v)]
  | (k', v') :: rest => if k' = k then (k, v) :: rest else (k', v') :: insertHash k v rest

/-- The loop of `getRoleHashMap` over the decoded "roles" array: every
entry must be an object carrying a non-empty string "name"; its hash is
the same marshal-then-FNV-then-encode pipeline as `hashRevision`. -/
def rolesHashLoop : JsonList → List (String × List Nat) → Option (List (String × List Nat))
  | .nil, acc => some acc
  | .cons r rest, acc =>
      match r with
      | Json.obj rm =>
          match lookupJ "name" rm with
          | some (Json.str n) =>
              if n = "" then none
              else rolesHashLoop rest (insertHash n (hashRevision (marshalBytes (Json.obj rm))) acc)
          | _ => none
      | _ => none

/-- Translation of `getRoleHashMap`: empty patch bytes give an empty map
with no error; otherwise the bytes must parse, the top level must
unmarshal as a map, `spec` must be a map and `spec.roles` an array, and
each role entry is hashed under its (required, non-empty) name. -/
def getRoleHashMap (data : RawDoc) : Option (List (String × List Nat)) :=
  match data with
  | RawDoc.empty => some []
  | RawDoc.malformed => none
  | RawDoc.doc j =>
      match jsonToMap j with
      | none => none
      | some obj =>
          match lookupJ "spec" obj with
          | some (Json.obj sp) =>
              match lookupJ "roles" sp with
              | some (Json.arr roles) => rolesHashLoop roles []
              | _ => none
          | _ => none

/-!
Concrete instances used to witness the patch/restore statements.
-/

def c2RoleP : RoleSpec :=
  { name := "r", replicas := some 1, workloadAPIVersion := "apps/v1",
    workloadKind := "StatefulSet", template := JsonObj.nil }

def c2P : RoleBasedGroup :=
  { name := "p", ns := "d", roles := [c2RoleP],
    podGroupPolicy := some (JsonObj.cons "scheduleTimeoutSeconds" (Json.num 300) JsonObj.nil),
    status := JsonObj.nil }

def c2L : RoleBasedGroup :=
  { c2P with
    podGroupPolicy := some (JsonObj.cons "scheduleTimeoutSeconds" (Json.num 600) JsonObj.nil) }

def c2Patch : Json := (getRBGPatch c2P).getD Json.null

def c2Rev : ControllerRevision :=
  { name := "p-h-1", ns := "d", labels := [], controllerOwnerUID := none,
    revision := 1, creationTimestamp := 0, data := RawDoc.doc c2Patch }

def c3P : RoleBasedGroup :=
  { name := "q", ns := "d",
    roles := [{ name := "w", replicas := some 2, workloadAPIVersion := "leaderworkerset.x-k8s.io/v1",
                workloadKind := "LeaderWorkerSet", template := JsonObj.nil }],
    podGroupPolicy := none, status := JsonObj.nil }

def c3Patch : Json := (getRBGPatch c3P).getD Json.null

def c3Rev : ControllerRevision :=
  { name := "q-h-1", ns := "d", labels := [], controllerOwnerUID := none,
    revision := 1, creationTimestamp := 0, data := RawDoc.doc c3Patch }

/-- A revision record with the given name and number (empty data — the
garbage collector never looks at the patch). -/
def mkRev (nm : String) (i : Int) : ControllerRevision :=
  { name := nm, ns := "d", labels := [], controllerOwnerUID := none,
    revision := i, creationTimestamp := 0, data := RawDoc.empty }

def c4Input : List ControllerRevision :=
  [mkRev "k" 11, mkRev "a" 1, mkRev "b" 2, mkRev "c" 3, mkRev "e" 4, mkRev "f" 5,
   mkRev "g" 6, mkRev "h" 7, mkRev "i" 8, mkRev "j" 9, mkRev "m" 10]

/-- A store whose delete fails exactly on the revision numbered 1. -/
def c4DelOk (r : ControllerRevision) : Bool := decide (r.revision ≠ 1)

def c5DelOk : ControllerRevision → Bool := fun _ => true

def c5Input : List ControllerRevision :=
  [mkRev "a" 1, mkRev "b" 2, mkRev "c" 3, mkRev "e" 4, mkRev "f" 5, mkRev "g" 6,
   mkRev "h" 7, mkRev "i" 8, mkRev "j" 9, mkRev "k" 10, mkRev "m" 11]

def c6Neg : ControllerRevision := mkRev "n" (-1)

def c6List : List ControllerRevision := [mkRev "a" 1, mkRev "b" 3, mkRev "c" 3]

/-- Spec-side predicate for the per-role hashing claim: the patch data
is empty, or parses to an object whose "spec" is an object whose "roles"
is an array in which every entry is an object with a non-empty string
"name". -/
def rolesAllNamed : JsonList → Bool
  | .nil => true
  | .cons r rest =>
      (match r with
       | Json.obj rm =>
           match lookupJ "name" rm with
           | some (Json.str n) => !(n == "")
           | _ => false
       | _ => false) && rolesAllNamed rest

/-- The role names appearing in a roles array (entries without a string
name contribute nothing; in the well-shaped case every entry has one). -/
def roleNames : JsonList → List String
  | .nil => []
  | .cons r rest =>
      (match r with
       | Json.obj rm =>
           match lookupJ "name" rm with
           | some (Json.str n) => [n]
           | _ => []
       | _ => []) ++ roleNames rest

/-- Spec-side well-formedness of a revision's patch data for per-role
hashing, written from the amended claim's words. -/
def patchRolesShapeOK : RawDoc → Bool
  | RawDoc.empty => true
  | RawDoc.malformed => false
  | RawDoc.doc j =>
      match jsonToMap j with
      | none => false
      | some obj =>
          match lookupJ "spec" obj with
          | some (Json.obj sp) =>
              match lookupJ "roles" sp with
              | some (Json.arr roles) => rolesAllNamed roles
              | _ => false
          | _ => false

def c8Role : JsonObj := JsonObj.cons "name" (Json.str "r") JsonObj.nil

def c8Roles : JsonList := JsonList.cons (Json.obj c8Role) JsonList.nil

def c8Sp : JsonObj := JsonObj.cons "roles" (Json.arr c8Roles) JsonObj.nil

def c8Obj : JsonObj := JsonObj.cons "spec" (Json.obj c8Sp) JsonObj.nil

def c8Map : List (String × List Nat) :=
  [("r", hashRevision (marshalBytes (Json.obj c8Role)))]

/-!
Theorems.

Everything below is a statement about the definitions above: round-trip
lemmas for the encoders, the behaviour of the strategic-merge restore,
the garbage-collection and highest-revision scans, the list filter, the
per-role hash map, and the revision-name length bound, each followed by
the concrete witnesses and counterexamples the statements call for.
-/

theorem decodeRole_encodeRole (r : RoleSpec) : decodeRole (encodeRole r) = some r := by
  rcases r with ⟨n, rep, a, k, t⟩
  cases rep <;>
    simp [decodeRole, encodeRole, decStrField, decOptIntField, decWorkload, decObjField, lookupJ]

theorem decodeRoles_encodeRoles (rs : List RoleSpec) :
    decodeRoles (encodeRoles rs) = some rs := by
  induction rs with
  | nil => rfl
  | cons r rest ih => simp [encodeRoles, decodeRoles, decodeRole_encodeRole, ih]

theorem decodeRBG_encodeRBG (r : RoleBasedGroup) : decodeRBG (encodeRBG r) = some r := by
  rcases r with ⟨n, ns, roles, pol, st⟩
  cases pol <;>
    simp [decodeRBG, encodeRBG, jsonToMap, decMeta, decSpec, decObjField, decStrField,
      lookupJ, decodeRoles_encodeRoles]

/-- The patch document `getRBGPatch` builds, in closed form. -/
theorem getRBGPatch_eq (rbg : RoleBasedGroup) :
    getRBGPatch rbg = some (Json.obj (JsonObj.cons "spec"
      (Json.obj (JsonObj.cons "roles" (Json.arr (encodeRoles rbg.roles))
        (JsonObj.cons "$path" (Json.str "replace") JsonObj.nil))) JsonObj.nil)) := by
  rcases rbg with ⟨n, ns, roles, pol, st⟩
  cases pol <;> simp [getRBGPatch, encodeRBG, lookupJ]

/-- Applying a revision whose data is the patch built from parent `P`
onto a live parent `L` succeeds and yields `L` with exactly the roles
list replaced by `P`'s; the group policy, metadata and status keep
`L`'s values (the patch covers only "roles" plus the inert "$path"
key, which the typed decode drops). -/
theorem ApplyRevision_patch (L P : RoleBasedGroup) (rev : ControllerRevision)
    (hpatch : ∃ pj, getRBGPatch P = some pj ∧ rev.data = RawDoc.doc pj) :
    ApplyRevision L rev = some { L with roles := P.roles } := by
  obtain ⟨pj, hpj, hdata⟩ := hpatch
  rw [getRBGPatch_eq] at hpj
  obtain rfl : pj = _ := (Option.some.injEq _ _).mp hpj.symm
  rcases L with ⟨n, ns, roles, pol, st⟩
  cases pol <;>
    simp [ApplyRevision, hdata, encodeRBG, jsonToMap, mergeMap, mergeObjEntries, mergeOne,
      lookupJ, setJ, decodeRBG, decMeta, decSpec, decObjField, decStrField,
      decodeRoles_encodeRoles]

theorem revLt_eq_key (a b : ControllerRevision) :
    revLt a b = decide (revKey a < revKey b) := by
  unfold revLt revKey
  rcases eq_or_ne a.revision b.revision with h1 | h1
  · rcases eq_or_ne a.creationTimestamp b.creationTimestamp with h2 | h2
    · simp [h1, h2, Prod.Lex.lt_iff]
    · simp [h1, h2, Prod.Lex.lt_iff]
  · simp [h1, Prod.Lex.lt_iff]

theorem revLt_false_iff (a b : ControllerRevision) :
    revLt a b = false ↔ revKey b ≤ revKey a := by
  rw [revLt_eq_key, decide_eq_false_iff_not, not_lt]

theorem insertRev_perm (x : ControllerRevision) (l : List ControllerRevision) :
    List.Perm (insertRev x l) (x :: l) := by
  induction l with
  | nil => rfl
  | cons y ys ih =>
      unfold insertRev
      split
      · rfl
      · exact (List.Perm.cons y ih).trans (List.Perm.swap x y ys)

theorem sortRevs_perm (l : List ControllerRevision) : List.Perm (sortRevs l) l := by
  have main : ∀ (l acc : List ControllerRevision),
      List.Perm (l.foldl (fun acc x => insertRev x acc) acc) (acc ++ l) := by
    intro l
    induction l with
    | nil => simp
    | cons x xs ih =>
        intro acc
        have h1 : List.Perm (xs.foldl (fun acc x => insertRev x acc) (insertRev x acc))
            (insertRev x acc ++ xs) := ih _
        have h2 : List.Perm (insertRev x acc ++ xs) ((x :: acc) ++ xs) :=
          (insertRev_perm x acc).append_right xs
        exact (h1.trans h2).trans List.perm_middle.symm
  simpa using main l []

theorem pairwise_insertRev (x : ControllerRevision) (l : List ControllerRevision)
    (h : l.Pairwise revLeP) : (insertRev x l).Pairwise revLeP := by
  induction l with
  | nil => simp [insertRev, revLeP, List.Pairwise]
  | cons y ys ih =>
      unfold insertRev
      cases hxy : revLt x y with
      | false =>
          simp only [Bool.false_eq_true, if_neg]
          have hyx : revKey y ≤ revKey x := (revLt_false_iff x y).mp hxy
          refine List.Pairwise.cons ?_ (ih (List.pairwise_cons.mp h).2)
          intro z hz
          rcases List.mem_cons.mp ((insertRev_perm x ys).mem_iff.mp hz) with rfl | hz'
          · exact hyx
          · exact (List.pairwise_cons.mp h).1 z hz'
      | true =>
          simp only [if_pos rfl]
          have hlt : revKey x < revKey y := by
            have := revLt_eq_key x y ▸ hxy
            exact of_decide_eq_true this
          refine List.Pairwise.cons ?_ h
          intro z hz
          rcases List.mem_cons.mp hz with rfl | hz'
          · exact le_of_lt hlt
          · exact le_trans (le_of_lt hlt) ((List.pairwise_cons.mp h).1 z hz')

theorem sortRevs_pairwise (l : List ControllerRevision) :
    (sortRevs l).Pairwise revLeP := by
  have main : ∀ (l acc : List ControllerRevision), acc.Pairwise revLeP →
      (l.foldl (fun acc x => insertRev x acc) acc).Pairwise revLeP := by
    intro l
    induction l with
    | nil => intro acc h; simpa using h
    | cons x xs ih => intro acc h; exact ih _ (pairwise_insertRev x acc h)
  exact main l [] (by simp)

theorem fnv32a_lt (bytes : List Nat) : fnv32a bytes < 4294967296 := by
  have main : ∀ (l : List Nat) (h : Nat), h < 4294967296 →
      l.foldl (fun h b => ((h ^^^ b) * 16777619) % 4294967296) h < 4294967296 := by
    intro l
    induction l with
    | nil => intro h hh; simpa using hh
    | cons b bs ih =>
        intro h _
        exact ih _ (Nat.mod_lt _ (by norm_num))
  exact main _ _ (by norm_num)

theorem natDecAux_length_le : ∀ (fuel : Nat) (k n : Nat) (acc : List Nat),
    n < 10 ^ k → 0 < k → (natDecAux fuel n acc).length ≤ k + acc.length := by
  intro fuel
  induction fuel with
  | zero => intro k n acc _ _; simp only [natDecAux]; omega
  | succ fuel ih =>
      intro k n acc hn hk
      unfold natDecAux
      split
      · simp only [List.length_cons]; omega
      · rename_i hbig
        have hk2 : 2 ≤ k := by
          by_contra hlt
          interval_cases k
          · exact absurd hn (by omega)
        have hdiv : n / 10 < 10 ^ (k - 1) := by
          have h10 : (10 : Nat) ^ k = 10 ^ (k - 1) * 10 := by
            have : k - 1 + 1 = k := by omega
            calc (10 : Nat) ^ k = 10 ^ (k - 1 + 1) := by rw [this]
              _ = 10 ^ (k - 1) * 10 := pow_succ 10 (k - 1)
          exact Nat.div_lt_of_lt_mul (by omega)
        have := ih (k - 1) (n / 10) ((48 + n % 10) :: acc) hdiv (by omega)
        calc (natDecAux fuel (n / 10) ((48 + n % 10) :: acc)).length
            ≤ (k - 1) + ((48 + n % 10) :: acc).length := this
          _ ≤ k + acc.length := by simp [List.length_cons]; omega

theorem natDec_length_le (k n : Nat) (hn : n < 10 ^ k) (hk : 0 < k) :
    (natDec n).length ≤ k := by
  simpa using natDecAux_length_le (n + 1) k n [] hn hk

theorem hashRevision_length_le (raw : List Nat) : (hashRevision raw).length ≤ 10 := by
  have h1 : fnv32a raw < 10 ^ 10 := lt_trans (fnv32a_lt raw) (by norm_num)
  have h2 := natDec_length_le 10 (fnv32a raw) h1 (by norm_num)
  simpa [hashRevision, safeEncode] using h2

theorem intDec_length_le (n : Int) (hlo : -(2 ^ 63) ≤ n) (hhi : n < 2 ^ 63) :
    (intDec n).length ≤ 20 := by
  unfold intDec
  split
  · rename_i hneg
    have hmag : (-n).toNat < 10 ^ 19 := by
      have h1 : (-n) ≤ 2 ^ 63 := by omega
      have h2 : ((-n).toNat : Int) = -n := Int.toNat_of_nonneg (by omega)
      have : (-n).toNat ≤ 2 ^ 63 := by omega
      calc (-n).toNat ≤ 2 ^ 63 := this
        _ < 10 ^ 19 := by norm_num
    have := natDec_length_le 19 (-n).toNat hmag (by norm_num)
    simp only [List.length_cons]; omega
  · rename_i hpos
    have hmag : n.toNat < 10 ^ 19 := by
      have : n.toNat < 2 ^ 63 := by omega
      calc n.toNat < 2 ^ 63 := this
        _ < 10 ^ 19 := by norm_num
    have := natDec_length_le 19 n.toNat hmag (by norm_num)
    omega

/-- C1: the patch document getRBGPatch builds carries, inside its "spec"
subtree, the roles list and the literal key "$path" mapped to "replace";
the directive key "$patch" the spec (and the repository's KEP, which
shows the stored data with a "$patch: replace" entry) calls for is
absent — the source misspells it, so no replace directive is emitted. -/
theorem getRBGPatch_emits_path_not_patch (rbg : RoleBasedGroup) :
    ∃ sp : JsonObj,
      getRBGPatch rbg = some (Json.obj (JsonObj.cons "spec" (Json.obj sp) JsonObj.nil)) ∧
      lookupJ "$patch" sp = none ∧
      lookupJ "$path" sp = some (Json.str "replace") ∧
      lookupJ "roles" sp = some (Json.arr (encodeRoles rbg.roles)) := by
  refine ⟨_, getRBGPatch_eq rbg, ?_, ?_, ?_⟩ <;> simp [lookupJ]

/-- C2 (counterexample to the claim as stated): for a live parent whose
group policy differs from the historical parent's, applying the revision
built from the historical parent keeps the live policy — the group
policy is not covered by the patch, contradicting the claim that it is
restored to the historical value. -/
theorem ApplyRevision_policy_not_restored_cex :
    getRBGPatch c2P = some c2Patch ∧
    (ApplyRevision c2L c2Rev).map RoleBasedGroup.podGroupPolicy = some c2L.podGroupPolicy ∧
    c2L.podGroupPolicy ≠ c2P.podGroupPolicy := by decide

/-- C2 (amended): applying a revision built from parent P onto a live
parent L succeeds, and exactly the roles list is replaced by P's
historical roles; the group policy — like every other field not covered
by the patch — retains L's current value. -/
theorem ApplyRevision_covers_roles_only (L P : RoleBasedGroup) (rev : ControllerRevision)
    (pj : Json) (hbuild : getRBGPatch P = some pj) (hdata : rev.data = RawDoc.doc pj) :
    ∃ Q, ApplyRevision L rev = some Q ∧ Q.roles = P.roles ∧
      Q.podGroupPolicy = L.podGroupPolicy ∧ Q.name = L.name ∧ Q.ns = L.ns ∧
      Q.status = L.status :=
  ⟨{ L with roles := P.roles }, ApplyRevision_patch L P rev ⟨pj, hbuild, hdata⟩,
    rfl, rfl, rfl, rfl, rfl⟩

theorem ApplyRevision_covers_roles_only_witness :
    (getRBGPatch c2P = some c2Patch ∧ c2Rev.data = RawDoc.doc c2Patch) ∧
    (∃ Q, ApplyRevision c2L c2Rev = some Q ∧ Q.roles = c2P.roles ∧
      Q.podGroupPolicy = c2L.podGroupPolicy ∧ Q.name = c2L.name ∧ Q.ns = c2L.ns ∧
      Q.status = c2L.status) :=
  ⟨⟨by decide, rfl⟩, ApplyRevision_covers_roles_only c2L c2P c2Rev c2Patch (by decide) rfl⟩

/-- C3: build-then-restore round-trip — applying the revision built from
P back onto P itself returns a parent whose roles and group policy equal
those P had when the revision was built (the roles are replaced with P's
own, the policy is untouched and hence still P's). -/
theorem ApplyRevision_roundtrip (P : RoleBasedGroup) (rev : ControllerRevision)
    (pj : Json) (hbuild : getRBGPatch P = some pj) (hdata : rev.data = RawDoc.doc pj) :
    ∃ Q, ApplyRevision P rev = some Q ∧ Q.roles = P.roles ∧
      Q.podGroupPolicy = P.podGroupPolicy :=
  ⟨{ P with roles := P.roles }, ApplyRevision_patch P P rev ⟨pj, hbuild, hdata⟩, rfl, rfl⟩

theorem ApplyRevision_roundtrip_witness :
    (getRBGPatch c3P = some c3Patch ∧ c3Rev.data = RawDoc.doc c3Patch) ∧
    (∃ Q, ApplyRevision c3P c3Rev = some Q ∧ Q.roles = c3P.roles ∧
      Q.podGroupPolicy = c3P.podGroupPolicy) :=
  ⟨⟨by decide, rfl⟩, ApplyRevision_roundtrip c3P c3Rev c3Patch (by decide) rfl⟩

/-- Helper: the state-passing embedding agrees with the functional one
and returns the live object unchanged. -/
theorem ApplyRevisionS_eq (rbg : RoleBasedGroup) (rev : ControllerRevision) :
    ApplyRevisionS rbg rev = (rbg, ApplyRevision rbg rev) := by
  cases hd : rev.data with
  | empty => simp [ApplyRevisionS, ApplyRevision, hd]
  | malformed => simp [ApplyRevisionS, ApplyRevision, hd]
  | doc p =>
      cases h1 : jsonToMap (encodeRBG rbg) with
      | none =>
          cases h2 : jsonToMap p <;> simp [ApplyRevisionS, ApplyRevision, hd, h1, h2]
      | some o =>
          cases h2 : jsonToMap p with
          | none => simp [ApplyRevisionS, ApplyRevision, hd, h1, h2]
          | some pm =>
              cases h3 : mergeMap o pm <;>
                simp [ApplyRevisionS, ApplyRevision, hd, h1, h2, h3]

/-- C10: ApplyRevision leaves its live parent argument unchanged whether
it succeeds or errors — in the statement-by-statement embedding that
threads the caller's object through the call, the object comes back
exactly as it went in, and the result (a freshly decoded object, when
the call succeeds) is the functional ApplyRevision of the inputs. -/
theorem ApplyRevision_leaves_live_unchanged (rbg : RoleBasedGroup) (rev : ControllerRevision) :
    (ApplyRevisionS rbg rev).1 = rbg ∧
    (ApplyRevisionS rbg rev).2 = ApplyRevision rbg rev := by
  rw [ApplyRevisionS_eq]
  exact ⟨rfl, rfl⟩

theorem deleteSeq_all_ok (delOk : ControllerRevision → Bool) :
    ∀ l : List ControllerRevision, (∀ r ∈ l, delOk r = true) → deleteSeq delOk l = (l, false) := by
  intro l
  induction l with
  | nil => intro _; rfl
  | cons r rs ih =>
      intro h
      unfold deleteSeq
      rw [if_pos (h r (by simp)), ih (fun x hx => h x (by simp [hx]))]

/-- C4 (counterexample to the claim as stated): with eleven revisions
given newest-first and the store failing the very first delete, the
returned list is the in-place sorted slice, not the original input
order. -/
theorem CleanExpiredRevision_not_original_cex :
    (CleanExpiredRevision c4DelOk c4Input).failed = true ∧
    (CleanExpiredRevision c4DelOk c4Input).returned ≠ c4Input := by decide

/-- C4 (amended): when a delete fails partway through, the function
returns the error together with the full, un-pruned list of revisions —
the input re-sorted ascending in place (a permutation of the input with
nothing removed), not the input in its original order. -/
theorem CleanExpiredRevision_failure_keeps_all (delOk : ControllerRevision → Bool)
    (revisions : List ControllerRevision)
    (hfail : (CleanExpiredRevision delOk revisions).failed = true) :
    (CleanExpiredRevision delOk revisions).returned = sortRevs revisions ∧
    List.Perm (CleanExpiredRevision delOk revisions).returned revisions := by
  unfold CleanExpiredRevision at hfail ⊢
  split at hfail
  · exact absurd hfail (by simp)
  next h =>
    split at hfail
    next h2 =>
      rw [if_neg h, if_pos h2]
      exact ⟨rfl, sortRevs_perm revisions⟩
    next h2 => exact absurd hfail (by simp)

theorem CleanExpiredRevision_failure_keeps_all_witness :
    (CleanExpiredRevision c4DelOk c4Input).failed = true ∧
    ((CleanExpiredRevision c4DelOk c4Input).returned = sortRevs c4Input ∧
      List.Perm (CleanExpiredRevision c4DelOk c4Input).returned c4Input) :=
  ⟨by decide, CleanExpiredRevision_failure_keeps_all c4DelOk c4Input (by decide)⟩

/-- C5: retention with all deletes succeeding — for more than ten
revisions exactly length - 10 are deleted (the oldest under the
ascending sort by revision number, creation timestamp, name), exactly
ten are returned, deleted and returned together are the sorted
permutation of the input, and every returned revision is ordered at or
after every deleted one under that sort; with at most ten revisions
nothing is deleted and the input comes back unchanged. -/
theorem CleanExpiredRevision_retention (delOk : ControllerRevision → Bool)
    (revisions : List ControllerRevision)
    (hdel : ∀ r ∈ revisions, delOk r = true) :
    (10 < revisions.length →
      (CleanExpiredRevision delOk revisions).failed = false ∧
      (CleanExpiredRevision delOk revisions).deleted.length = revisions.length - 10 ∧
      (CleanExpiredRevision delOk revisions).returned.length = 10 ∧
      (CleanExpiredRevision delOk revisions).deleted
          ++ (CleanExpiredRevision delOk revisions).returned = sortRevs revisions ∧
      List.Perm ((CleanExpiredRevision delOk revisions).deleted
          ++ (CleanExpiredRevision delOk revisions).returned) revisions ∧
      ∀ d ∈ (CleanExpiredRevision delOk revisions).deleted,
        ∀ r ∈ (CleanExpiredRevision delOk revisions).returned, revKey d ≤ revKey r) ∧
    (revisions.length ≤ 10 → CleanExpiredRevision delOk revisions = ⟨[], revisions, false⟩) := by
  constructor
  · intro h10
    have hlen : (sortRevs revisions).length = revisions.length :=
      (sortRevs_perm revisions).length_eq
    have hnneg : ¬ ((revisions.length : Int) - 10 ≤ 0) := by omega
    have htoNat : ((revisions.length : Int) - 10).toNat = revisions.length - 10 := by omega
    have htake : ∀ r ∈ (sortRevs revisions).take (((revisions.length : Int) - 10).toNat),
        delOk r = true := by
      intro r hr
      exact hdel r ((sortRevs_perm revisions).mem_iff.mp (List.mem_of_mem_take hr))
    have hds := deleteSeq_all_ok delOk _ htake
    have hres : CleanExpiredRevision delOk revisions =
        ⟨(sortRevs revisions).take (((revisions.length : Int) - 10).toNat),
         (sortRevs revisions).drop (((revisions.length : Int) - 10).toNat), false⟩ := by
      unfold CleanExpiredRevision
      rw [if_neg hnneg, hds]
      rfl
    have hsplit : (sortRevs revisions).take (((revisions.length : Int) - 10).toNat)
        ++ (sortRevs revisions).drop (((revisions.length : Int) - 10).toNat)
        = sortRevs revisions := List.take_append_drop _ _
    have hpair : ((sortRevs revisions).take (((revisions.length : Int) - 10).toNat)
        ++ (sortRevs revisions).drop (((revisions.length : Int) - 10).toNat)).Pairwise revLeP := by
      rw [hsplit]; exact sortRevs_pairwise revisions
    rw [hres]
    refine ⟨rfl, ?_, ?_, hsplit, ?_, ?_⟩
    · simp only [List.length_take, hlen, htoNat]
      omega
    · simp only [List.length_drop, hlen, htoNat]
      omega
    · rw [hsplit]; exact sortRevs_perm revisions
    · intro d hd r hr
      exact (List.pairwise_append.mp hpair).2.2 d hd r hr
  · intro hle
    unfold CleanExpiredRevision
    rw [if_pos (by omega : ((revisions.length : Int) - 10 ≤ 0))]

theorem CleanExpiredRevision_retention_witness :
    (∀ r ∈ c5Input, c5DelOk r = true) ∧ 10 < c5Input.length ∧
    ((CleanExpiredRevision c5DelOk c5Input).failed = false ∧
     (CleanExpiredRevision c5DelOk c5Input).deleted.length = c5Input.length - 10 ∧
     (CleanExpiredRevision c5DelOk c5Input).returned.length = 10) :=
  ⟨by decide, by decide,
    ((CleanExpiredRevision_retention c5DelOk c5Input (by decide)).1 (by decide)).1,
    ((CleanExpiredRevision_retention c5DelOk c5Input (by decide)).1 (by decide)).2.1,
    ((CleanExpiredRevision_retention c5DelOk c5Input (by decide)).1 (by decide)).2.2.1⟩

theorem ghr_foldl_lt : ∀ (l : List ControllerRevision) (m : Int) (o : Option ControllerRevision),
    (∀ r ∈ l, r.revision < m) → l.foldl ghrStep (m, o) = (m, o) := by
  intro l
  induction l with
  | nil => intro m o _; rfl
  | cons a t ih =>
      intro m o h
      have ha : a.revision < m := h a (by simp)
      have hstep : ghrStep (m, o) a = (m, o) := by
        unfold ghrStep
        rw [if_neg (by omega : ¬ (m ≤ a.revision))]
      calc (a :: t).foldl ghrStep (m, o) = t.foldl ghrStep (ghrStep (m, o) a) := rfl
        _ = t.foldl ghrStep (m, o) := by rw [hstep]
        _ = (m, o) := ih m o (fun r hr => h r (by simp [hr]))

theorem ghr_foldl_ge : ∀ (l : List ControllerRevision) (m : Int) (o : Option ControllerRevision),
    (∃ r ∈ l, m ≤ r.revision) →
    ∃ x pre post, l = pre ++ x :: post ∧ l.foldl ghrStep (m, o) = (x.revision, some x) ∧
      m ≤ x.revision ∧ (∀ r ∈ l, r.revision ≤ x.revision) ∧
      (∀ r ∈ post, r.revision < x.revision) := by
  intro l
  induction l with
  | nil => intro m o h; simp at h
  | cons a t ih =>
      intro m o h
      by_cases hma : m ≤ a.revision
      · have hstep : ghrStep (m, o) a = (a.revision, some a) := by
          unfold ghrStep; rw [if_pos hma]
        by_cases ht : ∃ r ∈ t, a.revision ≤ r.revision
        · obtain ⟨x, pre', post', hsplit, hfold, hax, hall, hpost⟩ := ih a.revision (some a) ht
          refine ⟨x, a :: pre', post', by simp [hsplit], ?_, le_trans hma hax, ?_, hpost⟩
          · calc (a :: t).foldl ghrStep (m, o) = t.foldl ghrStep (ghrStep (m, o) a) := rfl
              _ = (x.revision, some x) := by rw [hstep]; exact hfold
          · intro r hr
            rcases List.mem_cons.mp hr with rfl | hr'
            · exact hax
            · exact hall r hr'
        · have ht' : ∀ r ∈ t, r.revision < a.revision := by
            intro r hr
            by_contra hcon
            exact ht ⟨r, hr, by omega⟩
          refine ⟨a, [], t, rfl, ?_, hma, ?_, ht'⟩
          · calc (a :: t).foldl ghrStep (m, o) = t.foldl ghrStep (ghrStep (m, o) a) := rfl
              _ = (a.revision, some a) := by rw [hstep]; exact ghr_foldl_lt t _ _ ht'
          · intro r hr
            rcases List.mem_cons.mp hr with rfl | hr'
            · exact le_refl _
            · exact le_of_lt (ht' r hr')
      · have hstep : ghrStep (m, o) a = (m, o) := by
          unfold ghrStep; rw [if_neg hma]
        have hex : ∃ r ∈ t, m ≤ r.revision := by
          obtain ⟨r, hr, hmr⟩ := h
          rcases List.mem_cons.mp hr with rfl | hr'
          · exact absurd hmr hma
          · exact ⟨r, hr', hmr⟩
        obtain ⟨x, pre', post', hsplit, hfold, hmx, hall, hpost⟩ := ih m o hex
        refine ⟨x, a :: pre', post', by simp [hsplit], ?_, hmx, ?_, hpost⟩
        · calc (a :: t).foldl ghrStep (m, o) = t.foldl ghrStep (ghrStep (m, o) a) := rfl
            _ = (x.revision, some x) := by rw [hstep]; exact hfold
        · intro r hr
          rcases List.mem_cons.mp hr with rfl | hr'
          · omega
          · exact hall r hr'

/-- C6 (counterexample to the claim as stated): a non-empty list whose
only revision number is negative makes GetHighestRevision return nil —
the running maximum starts at zero and a negative revision never
replaces it — so not every non-empty list yields an element. -/
theorem GetHighestRevision_negative_cex :
    GetHighestRevision [c6Neg] = none ∧ [c6Neg] ≠ ([] : List ControllerRevision) := by decide

/-- C6 (amended): for an empty list GetHighestRevision returns nil; for
every non-empty list containing at least one revision with nonnegative
number (every real revision is numbered at least 1) it returns an
element of the list whose number is greater than or equal to every other
element's, namely the last element attaining that maximum — every
element after it in input order is strictly smaller. -/
theorem GetHighestRevision_spec (revisions : List ControllerRevision)
    (hne : revisions ≠ []) (hnn : ∃ r ∈ revisions, 0 ≤ r.revision) :
    GetHighestRevision ([] : List ControllerRevision) = none ∧
    ∃ x pre post, GetHighestRevision revisions = some x ∧ x ∈ revisions ∧
      revisions = pre ++ x :: post ∧
      (∀ r ∈ revisions, r.revision ≤ x.revision) ∧
      (∀ r ∈ post, r.revision < x.revision) := by
  obtain ⟨x, pre, post, hsplit, hfold, _, hall, hpost⟩ := ghr_foldl_ge revisions 0 none hnn
  have hlen : ¬ (revisions.length ≤ 0) := by
    cases revisions
    · exact absurd rfl hne
    · simp
  refine ⟨rfl, x, pre, post, ?_, ?_, hsplit, hall, hpost⟩
  · unfold GetHighestRevision
    rw [if_neg hlen, hfold]
  · rw [hsplit]
    exact List.mem_append_right _ (List.mem_cons_self _ _)

theorem GetHighestRevision_spec_witness :
    (c6List ≠ [] ∧ (∃ r ∈ c6List, 0 ≤ r.revision)) ∧
    (GetHighestRevision ([] : List ControllerRevision) = none ∧
     ∃ x pre post, GetHighestRevision c6List = some x ∧ x ∈ c6List ∧
       c6List = pre ++ x :: post ∧
       (∀ r ∈ c6List, r.revision ≤ x.revision) ∧
       (∀ r ∈ post, r.revision < x.revision)) :=
  ⟨⟨by decide, by decide⟩, GetHighestRevision_spec c6List (by decide) (by decide)⟩

/-- C7: on a failed underlying list call ListRevisions yields an error
and no result; a nil selector yields an empty result whatever the store
holds; and on success the result holds exactly the stored records that
are in the parent's namespace, match the selector, and are unowned or
controller-owned by this parent (matching UID). -/
theorem ListRevisions_spec :
    (∀ (store : List ControllerRevision) (parent : ParentObject)
        (sel : Option (List (String × String))),
      ListRevisions store true parent sel = none) ∧
    (∀ (store : List ControllerRevision) (parent : ParentObject),
      ListRevisions store false parent none = some []) ∧
    (∀ (store : List ControllerRevision) (parent : ParentObject)
        (sel : Option (List (String × String))),
      ∃ l, ListRevisions store false parent sel = some l ∧
        ∀ r, r ∈ l ↔ (r ∈ store ∧ r.ns = parent.ns ∧ matchesSelector sel r.labels = true ∧
          (r.controllerOwnerUID = none ∨ r.controllerOwnerUID = some parent.uid))) := by
  refine ⟨fun store parent sel => rfl, ?_, ?_⟩
  · intro store parent
    simp [ListRevisions, storeListRevisions, matchesSelector]
  · intro store parent sel
    refine ⟨_, rfl, ?_⟩
    intro r
    simp only [List.mem_filter, storeListRevisions, Bool.and_eq_true, beq_iff_eq,
      Bool.or_eq_true, Option.isNone_iff_eq_none, and_assoc]

theorem rolesHashLoop_isSome : ∀ (roles : JsonList) (acc : List (String × List Nat)),
    (rolesHashLoop roles acc).isSome = rolesAllNamed roles
  | .nil, acc => rfl
  | .cons r rest, acc => by
      cases r with
      | obj rm =>
          simp only [rolesHashLoop, rolesAllNamed]
          cases hn : lookupJ "name" rm with
          | none => simp
          | some v =>
              cases v with
              | str n =>
                  by_cases hne : n = ""
                  · simp [hne]
                  · simp [hne, rolesHashLoop_isSome rest _]
              | null => simp
              | bool b => simp
              | num m => simp
              | arr xs => simp
              | obj o => simp
      | null => simp [rolesHashLoop, rolesAllNamed]
      | bool b => simp [rolesHashLoop, rolesAllNamed]
      | num m => simp [rolesHashLoop, rolesAllNamed]
      | str s => simp [rolesHashLoop, rolesAllNamed]
      | arr xs => simp [rolesHashLoop, rolesAllNamed]

theorem insertHash_keys_mem (k : String) (v : List Nat) :
    ∀ (l : List (String × List Nat)) (n : String),
      n ∈ (insertHash k v l).map Prod.fst ↔ n = k ∨ n ∈ l.map Prod.fst := by
  intro l
  induction l with
  | nil => intro n; simp [insertHash]
  | cons p rest ih =>
      obtain ⟨k', v'⟩ := p
      intro n
      unfold insertHash
      by_cases hk : k' = k
      · rw [if_pos hk]
        subst hk
        simp
      · rw [if_neg hk]
        simp [ih]
        tauto

theorem insertHash_keys_nodup (k : String) (v : List Nat) :
    ∀ l : List (String × List Nat),
      (l.map Prod.fst).Nodup → ((insertHash k v l).map Prod.fst).Nodup := by
  intro l
  induction l with
  | nil => intro _; simp [insertHash]
  | cons p rest ih =>
      obtain ⟨k', v'⟩ := p
      intro h
      unfold insertHash
      by_cases hk : k' = k
      · rw [if_pos hk]
        subst hk
        simpa using h
      · rw [if_neg hk]
        simp only [List.map_cons, List.nodup_cons] at h ⊢
        refine ⟨?_, ih h.2⟩
        intro hmem
        rcases (insertHash_keys_mem k v rest k').mp hmem with h1 | h2
        · exact hk h1
        · exact h.1 h2

theorem rolesHashLoop_keys : ∀ (roles : JsonList) (acc m : List (String × List Nat)),
    rolesHashLoop roles acc = some m →
    ((acc.map Prod.fst).Nodup → (m.map Prod.fst).Nodup) ∧
    (∀ n, n ∈ m.map Prod.fst ↔ n ∈ acc.map Prod.fst ∨ n ∈ roleNames roles)
  | .nil, acc, m, h => by
      obtain rfl : acc = m := Option.some.inj h
      exact ⟨id, fun n => by simp [roleNames]⟩
  | .cons r rest, acc, m, h => by
      cases r with
      | obj rm =>
          simp only [rolesHashLoop] at h
          cases hn : lookupJ "name" rm with
          | none => simp only [hn] at h; exact absurd h (by simp)
          | some v =>
              cases v with
              | str n =>
                  simp only [hn] at h
                  by_cases hne : n = ""
                  · rw [if_pos hne] at h; exact absurd h (by simp)
                  · rw [if_neg hne] at h
                    obtain ⟨hnodup, hmem⟩ := rolesHashLoop_keys rest _ m h
                    constructor
                    · intro hacc
                      exact hnodup (insertHash_keys_nodup _ _ _ hacc)
                    · intro n'
                      rw [hmem n', insertHash_keys_mem]
                      simp only [roleNames, hn, List.mem_append, List.mem_singleton]
                      tauto
              | null => simp only [hn] at h; exact absurd h (by simp)
              | bool b => simp only [hn] at h; exact absurd h (by simp)
              | num m' => simp only [hn] at h; exact absurd h (by simp)
              | arr xs => simp only [hn] at h; exact absurd h (by simp)
              | obj o => simp only [hn] at h; exact absurd h (by simp)
      | null => simp only [rolesHashLoop] at h; exact absurd h (by simp)
      | bool b => simp only [rolesHashLoop] at h; exact absurd h (by simp)
      | num m' => simp only [rolesHashLoop] at h; exact absurd h (by simp)
      | str s => simp only [rolesHashLoop] at h; exact absurd h (by simp)
      | arr xs => simp only [rolesHashLoop] at h; exact absurd h (by simp)

/-- C8 (counterexample to the claim as stated): a revision with empty
patch data certainly lacks a "roles" array under "spec", yet
getRoleHashMap returns an empty map and no error. -/
theorem getRoleHashMap_empty_no_error :
    getRoleHashMap RawDoc.empty = some [] ∧ getRoleHashMap RawDoc.empty ≠ none := by decide

/-- C8 (amended): empty patch data yields an empty map with no error;
for any other data, getRoleHashMap succeeds exactly when the data parses
to an object carrying a "roles" array under "spec" in which every role
entry is an object with a non-empty string "name" (otherwise it errors);
and on success the map holds exactly one hash entry per distinct role
name, keyed by role name. -/
theorem getRoleHashMap_spec :
    (getRoleHashMap RawDoc.empty = some []) ∧
    (∀ d : RawDoc, (getRoleHashMap d).isSome = patchRolesShapeOK d) ∧
    (∀ (obj sp : JsonObj) (roles : JsonList) (m : List (String × List Nat)),
      lookupJ "spec" obj = some (Json.obj sp) →
      lookupJ "roles" sp = some (Json.arr roles) →
      getRoleHashMap (RawDoc.doc (Json.obj obj)) = some m →
      (m.map Prod.fst).Nodup ∧ ∀ n, n ∈ m.map Prod.fst ↔ n ∈ roleNames roles) := by
  refine ⟨rfl, ?_, ?_⟩
  · intro d
    cases d with
    | empty => rfl
    | malformed => rfl
    | doc j =>
        unfold getRoleHashMap patchRolesShapeOK
        cases hj : jsonToMap j with
        | none => simp [hj]
        | some o =>
            cases hs : lookupJ "spec" o with
            | none => simp [hj, hs]
            | some sv =>
                cases sv with
                | obj sp =>
                    cases hr : lookupJ "roles" sp with
                    | none => simp [hj, hs, hr]
                    | some rv =>
                        cases rv with
                        | arr roles => simp [hj, hs, hr, rolesHashLoop_isSome]
                        | null => simp [hj, hs, hr]
                        | bool b => simp [hj, hs, hr]
                        | num m' => simp [hj, hs, hr]
                        | str s => simp [hj, hs, hr]
                        | obj o2 => simp [hj, hs, hr]
                | null => simp [hj, hs]
                | bool b => simp [hj, hs]
                | num m' => simp [hj, hs]
                | str s => simp [hj, hs]
                | arr xs => simp [hj, hs]
  · intro obj sp roles m hspec hroles hm
    have hloop : rolesHashLoop roles [] = some m := by
      unfold getRoleHashMap at hm
      simpa [jsonToMap, hspec, hroles] using hm
    obtain ⟨hnodup, hmem⟩ := rolesHashLoop_keys roles [] m hloop
    exact ⟨hnodup (by simp), fun n => by simpa using hmem n⟩

theorem getRoleHashMap_spec_witness :
    (lookupJ "spec" c8Obj = some (Json.obj c8Sp) ∧
     lookupJ "roles" c8Sp = some (Json.arr c8Roles) ∧
     getRoleHashMap (RawDoc.doc (Json.obj c8Obj)) = some c8Map) ∧
    ((c8Map.map Prod.fst).Nodup ∧
     ("r" ∈ c8Map.map Prod.fst ↔ "r" ∈ roleNames c8Roles)) :=
  ⟨⟨rfl, rfl, rfl⟩,
   (getRoleHashMap_spec.2.2 c8Obj c8Sp c8Roles c8Map rfl rfl rfl).1,
   (getRoleHashMap_spec.2.2 c8Obj c8Sp c8Roles c8Map rfl rfl rfl).2 "r"⟩

/-- C9: for every parent name (as bytes), every hash produced by
hashRevision, and every int64 revision number, revisionName is the
parent name truncated to at most 220 bytes, the hash, and the decimal
revision number joined by hyphens, and its total length never exceeds
253 (at most 220 + 1 + 10 + 1 + 20 = 252). -/
theorem revisionName_spec (parentName raw : List Nat) (n : Int)
    (hlo : -(2 ^ 63) ≤ n) (hhi : n < 2 ^ 63) :
    revisionName parentName (hashRevision raw) n
      = parentName.take 220 ++ 45 :: (hashRevision raw ++ 45 :: intDec n) ∧
    (revisionName parentName (hashRevision raw) n).length ≤ 253 := by
  have hhash := hashRevision_length_le raw
  have hint := intDec_length_le n hlo hhi
  constructor
  · unfold revisionName
    split
    · rfl
    · rename_i hle
      rw [List.take_of_length_le (by omega)]
  · unfold revisionName
    have htr : (if 220 < parentName.length then parentName.take 220 else parentName).length
        ≤ 220 := by
      split
      · rename_i h; simp [List.length_take]
      · rename_i h; omega
    simp only [List.length_append, List.length_cons]
    omega

theorem revisionName_spec_witness :
    (-(2 ^ 63) ≤ (3 : Int) ∧ (3 : Int) < 2 ^ 63) ∧
    (revisionName [] (hashRevision []) 3
        = List.take 220 ([] : List Nat) ++ 45 :: (hashRevision [] ++ 45 :: intDec 3) ∧
      (revisionName [] (hashRevision []) 3).length ≤ 253) :=
  ⟨⟨by decide, by decide⟩, revisionName_spec [] [] 3 (by decide) (by decide)⟩
